import Mathlib

/-!
Verification of the vacancy-statistics aggregation pipeline.

The definitions below are a shallow embedding of the data model and the
operations of the data-processing module: the static currency table, the
`Salary` record constructor, the publication-year extraction (Python
`int(s[:4])`), the dictionary accumulator `tryToAdd`, the zero-fill step
`updateKeys`, the averaging step `getAverageSalary`, the ranking step
`getSortedDict`, the grouping driver `getKey`, the full-year set
`getYears`, and the CSV row filter.  Python dictionaries are embedded as
association lists in insertion order; Python floats are embedded as
rationals; fallible operations return `Option` or `Except`.
-/

namespace Spec2Proof

/-- The static currency-to-reference-rate table (`currency_to_rub`). -/
def currency_to_rub : List (String × ℚ) :=
  [("AZN", 35), ("BYR", 23.91), ("EUR", 59.90), ("GEL", 21.74), ("KGS", 0.76),
   ("KZT", 0.13), ("RUR", 1), ("UAH", 1.64), ("USD", 60.66), ("UZS", 0.0055)]

/-- Python dictionary lookup `dic[key]` on an insertion-ordered association
list, returning `none` where Python raises `KeyError`. -/
def lookupKey {K V : Type} [DecidableEq K] : List (K × V) → K → Option V
  | [], _ => none
  | p :: rest, k => if p.1 = k then some p.2 else lookupKey rest k

/-- The fields computed by `Salary.__init__`: floored bounds, the currency
code, the average of the floored bounds, and the converted average. -/
structure Salary where
  salary_from : Int
  salary_to : Int
  salary_currency : String
  averageSalary : ℚ
  salaryRub : ℚ
deriving DecidableEq

/-- The failure `Salary.__init__` hits when the currency code is missing
from `currency_to_rub` (Python `KeyError`). -/
inductive SalaryError where
  | unknownCurrency (code : String)
deriving DecidableEq

/-- `Salary.__init__` for a row whose `salary_from` and `salary_to` fields
parse to the floats `f` and `t`: floor both bounds, average them without
flooring, then convert by the table rate; a missing currency is the
`KeyError` of line 72. -/
def mkSalary (f t : ℚ) (cur : String) : Except SalaryError Salary :=
  let sf : Int := ⌊f⌋
  let st : Int := ⌊t⌋
  let avg : ℚ := ((st : ℚ) + (sf : ℚ)) / 2
  match lookupKey currency_to_rub cur with
  | some rate =>
      Except.ok { salary_from := sf, salary_to := st, salary_currency := cur,
                  averageSalary := avg, salaryRub := rate * avg }
  | none => Except.error (SalaryError.unknownCurrency cur)

/-- The code points Python's `int` parser strips as whitespace (CPython's
`Py_UNICODE_ISSPACE`, the per-character set behind `str.isspace`). -/
def pySpaceCodes : List Nat :=
  [0x9, 0xA, 0xB, 0xC, 0xD, 0x1C, 0x1D, 0x1E, 0x1F, 0x20, 0x85, 0xA0, 0x1680,
   0x2000, 0x2001, 0x2002, 0x2003, 0x2004, 0x2005, 0x2006, 0x2007, 0x2008,
   0x2009, 0x200A, 0x2028, 0x2029, 0x202F, 0x205F, 0x3000]

/-- Whitespace as Python's `int` parser sees it. -/
def pyIsSpace (c : Char) : Bool := pySpaceCodes.contains c.toNat

/-- First code points of the runs of ten consecutive decimal digits that
make up the Unicode `Nd` category (Unicode 14.0, as shipped with CPython
3.11); Python's `int` accepts any of these digits, each run carrying the
values 0 through 9 in order. -/
def ndZeroPoints : List Nat :=
  [0x30, 0x660, 0x6F0, 0x7C0, 0x966, 0x9E6, 0xA66, 0xAE6, 0xB66, 0xBE6,
   0xC66, 0xCE6, 0xD66, 0xDE6, 0xE50, 0xED0, 0xF20, 0x1040, 0x1090, 0x17E0,
   0x1810, 0x1946, 0x19D0, 0x1A80, 0x1A90, 0x1B50, 0x1BB0, 0x1C40, 0x1C50,
   0xA620, 0xA8D0, 0xA900, 0xA9D0, 0xA9F0, 0xAA50, 0xABF0, 0xFF10, 0x104A0,
   0x10D30, 0x11066, 0x110F0, 0x11136, 0x111D0, 0x112F0, 0x11450, 0x114D0,
   0x11650, 0x116C0, 0x11730, 0x118E0, 0x11950, 0x11C50, 0x11D50, 0x11DA0,
   0x16A60, 0x16AC0, 0x16B50, 0x1D7CE, 0x1D7D8, 0x1D7E2, 0x1D7EC, 0x1D7F6,
   0x1E140, 0x1E2F0, 0x1E950, 0x1FBF0]

/-- The decimal value of a Unicode decimal digit (`Nd`), `none` for every
other character: the digit-value lookup Python's `int` parser performs. -/
def pyDigitVal? (c : Char) : Option Nat :=
  (ndZeroPoints.find? (fun z => decide (z ≤ c.toNat ∧ c.toNat < z + 10))).map
    (fun z => c.toNat - z)

/-- Total version of `pyDigitVal?` (0 on non-digits), used to state the
value a digit run parses to. -/
def digitVal (c : Char) : Nat := (pyDigitVal? c).getD 0

/-- Digit run of a Python integer literal after the first digit: decimal
digits, with single underscores allowed between digits. -/
def pyDigitsCore : Nat → List Char → Option Nat
  | acc, [] => some acc
  | acc, c :: rest =>
    if (pyDigitVal? c).isSome then pyDigitsCore (acc * 10 + digitVal c) rest
    else if c = '_' then
      match rest with
      | c2 :: rest2 =>
          if (pyDigitVal? c2).isSome then pyDigitsCore (acc * 10 + digitVal c2) rest2
          else none
      | [] => none
    else none

/-- Digit run of a Python integer literal: at least one decimal digit,
single underscores allowed between digits. -/
def pyDigits : List Char → Option Nat
  | [] => none
  | c :: rest =>
    if (pyDigitVal? c).isSome then pyDigitsCore (digitVal c) rest else none

/-- Strip leading and trailing whitespace, as Python `int` does. -/
def pyStrip (l : List Char) : List Char :=
  ((l.dropWhile pyIsSpace).reverse.dropWhile pyIsSpace).reverse

/-- Python `int(str)` on a character list: strip whitespace, read an
optional sign, then a digit run; `none` where Python raises `ValueError`. -/
def pyIntChars (l : List Char) : Option Int :=
  match pyStrip l with
  | '+' :: rest => (pyDigits rest).map (fun n => (n : Int))
  | '-' :: rest => (pyDigits rest).map (fun n => -(n : Int))
  | rest => (pyDigits rest).map (fun n => (n : Int))

/-- The year extraction of `Vacancy.__init__` line 46:
`int(dic["published_at"][:4])`, i.e. Python `int` applied to the first
`min 4 (length)` characters of the publication-date string. -/
def vacancyYear (published_at : String) : Option Int :=
  pyIntChars (published_at.toList.take 4)

/-- The fields of a constructed `Vacancy` consumed by the grouping driver
`getKey`: the derived year, the area name, and the converted salary. -/
structure Vacancy where
  year : Int
  area_name : String
  salaryRub : ℚ
deriving DecidableEq

/-- `DataSet.tryToAdd`: add `val` at `key` when the key is present,
otherwise insert `(key, val)`; insertion appends at the end, matching
Python dictionary order. -/
def tryToAdd {K : Type} [DecidableEq K] (dic : List (K × ℚ)) (key : K) (val : ℚ) :
    List (K × ℚ) :=
  if (lookupKey dic key).isSome then
    dic.map (fun p => if p.1 = key then (p.1, p.2 + val) else p)
  else
    dic ++ [(key, val)]

/-- The row filter of `DataSet.csv_reader` lines 100-101: keep the rows
with no empty field whose field count matches the header row. -/
def otherLines (firstLine : List String) (lines : List (List String)) :
    List (List String) :=
  lines.filter (fun line => !(line.contains "") && line.length == firstLine.length)

/-- `DataSet.getYears`: the distinct years of the filtered vacancies, in
ascending order (Python `list(set(..))` then `sort()`). -/
def getYears (vacancies : List Vacancy) : List Int :=
  List.insertionSort (fun a b => a ≤ b) ((vacancies.map Vacancy.year).dedup)

/-- `DataSet.getAverageSalary`: map each key of the count map to 0 when its
count is 0 and to `floor (sum[key] / count[key])` otherwise; a key with a
nonzero count missing from the sum map is Python's `KeyError` (`none`). -/
def getAverageSalary {K : Type} [DecidableEq K] :
    List (K × ℚ) → List (K × ℚ) → Option (List (K × Int))
  | [], _ => some []
  | p :: rest, sum =>
    if p.2 = 0 then
      (getAverageSalary rest sum).map (fun tail => (p.1, 0) :: tail)
    else
      match lookupKey sum p.1 with
      | some s => (getAverageSalary rest sum).map (fun tail => (p.1, ⌊s / p.2⌋) :: tail)
      | none => none

/-- The descending-by-value comparison `key=lambda item: item[1]` with
`reverse=True` used by `DataSet.getSortedDict`. -/
def descBySnd {K V : Type} [LinearOrder V] (a b : K × V) : Prop := b.2 ≤ a.2

instance {K V : Type} [LinearOrder V] : DecidableRel (@descBySnd K V _) :=
  fun a b => inferInstanceAs (Decidable (b.2 ≤ a.2))

/-- `DataSet.getSortedDict`: stable sort by value in descending order, then
keep the first 10 entries (the final `dict(...)` rewrap is the identity on
the distinct-key lists produced by the pipeline). -/
def getSortedDict {K V : Type} [LinearOrder V] (keySalary : List (K × V)) :
    List (K × V) :=
  (List.insertionSort descBySnd keySalary).take 10

/-- `DataSet.updateKeys`: insert every year of `allYears` missing from the
map, with value 0, appended in the order of `allYears`. -/
def updateKeys {K : Type} [DecidableEq K] (allYears : List K)
    (keyCount : List (K × ℚ)) : List (K × ℚ) :=
  allYears.foldl
    (fun acc key => if (lookupKey acc key).isSome then acc else acc ++ [(key, 0)])
    keyCount

/-- The accumulation loop of `DataSet.getKey` lines 196-198: one `tryToAdd`
fold over the vacancies for a chosen key selector and value selector. -/
def accumulate {K : Type} [DecidableEq K] (vacancies : List Vacancy)
    (keyOf : Vacancy → K) (valOf : Vacancy → ℚ) : List (K × ℚ) :=
  vacancies.foldl (fun d v => tryToAdd d (keyOf v) (valOf v)) []

/-- `DataSet.getKey`: accumulate per-key salary sums and counts, then
either zero-fill both maps from `allYears` (year mode) or prune the count
map at the 1% share threshold (area mode), and finish with
`getAverageSalary`; returns the `(average, count)` pair. -/
def getKey {K : Type} [DecidableEq K] (allYears : List K) (vacancies : List Vacancy)
    (keyOf : Vacancy → K) (isArea : Bool) :
    Option (List (K × Int) × List (K × ℚ)) :=
  let keySum := accumulate vacancies keyOf Vacancy.salaryRub
  let keyCount := accumulate vacancies keyOf (fun _ => 1)
  let pair :=
    if isArea then
      (keySum, keyCount.filter (fun it => decide (it.2 / (vacancies.length : ℚ) > 0.01)))
    else
      (updateKeys allYears keySum, updateKeys allYears keyCount)
  (getAverageSalary pair.2 pair.1).map (fun avg => (avg, pair.2))

/-- A two-record dataset whose records arrive in descending year order,
used to exercise the year-mode key ordering. -/
def demoVacancies : List Vacancy :=
  [{ year := 2010, area_name := "A", salaryRub := 10 },
   { year := 2007, area_name := "B", salaryRub := 20 }]

/-- One record of the majority area of the pruning dataset. -/
def mRec : Vacancy := { year := 2000, area_name := "M", salaryRub := 10 }

/-- The single record of the 1%-share area of the pruning dataset. -/
def sRec : Vacancy := { year := 2000, area_name := "S", salaryRub := 30 }

/-- A 100-record dataset: 99 records in area "M" and one in area "S", so
the share of "S" is exactly 1%. -/
def area_demo : List Vacancy := List.replicate 99 mRec ++ [sRec]

/-! ### Association-list lookup lemmas -/

theorem lookupKey_eq_none_iff {K V : Type} [DecidableEq K] (l : List (K × V)) (k : K) :
    lookupKey l k = none ↔ k ∉ l.map Prod.fst := by
  induction l with
  | nil => simp [lookupKey]
  | cons p rest ih =>
    by_cases h : p.1 = k
    · simp [lookupKey, h, eq_comm]
    · have h' : ¬ k = p.1 := fun hh => h hh.symm
      simp only [lookupKey, if_neg h, List.map_cons, List.mem_cons, not_or]
      rw [ih]
      simp [h']

theorem lookupKey_append_of_some {K V : Type} [DecidableEq K]
    {l₁ l₂ : List (K × V)} {k : K} {v : V} (h : lookupKey l₁ k = some v) :
    lookupKey (l₁ ++ l₂) k = some v := by
  induction l₁ with
  | nil => exact Option.noConfusion h
  | cons p rest ih =>
    rw [List.cons_append]
    by_cases hp : p.1 = k
    · simp only [lookupKey, if_pos hp] at h ⊢
      exact h
    · simp only [lookupKey, if_neg hp] at h ⊢
      exact ih h

theorem lookupKey_append_of_none {K V : Type} [DecidableEq K]
    {l₁ l₂ : List (K × V)} {k : K} (h : lookupKey l₁ k = none) :
    lookupKey (l₁ ++ l₂) k = lookupKey l₂ k := by
  induction l₁ with
  | nil => rfl
  | cons p rest ih =>
    rw [List.cons_append]
    by_cases hp : p.1 = k
    · simp only [lookupKey, if_pos hp] at h
      exact Option.noConfusion h
    · simp only [lookupKey, if_neg hp] at h ⊢
      exact ih h

/-! ### Lemmas about the accumulator `tryToAdd` -/

theorem lookupKey_map_addAt {K : Type} [DecidableEq K]
    (d : List (K × ℚ)) (k : K) (v : ℚ) {w : ℚ} (h : lookupKey d k = some w) :
    lookupKey (d.map (fun p => if p.1 = k then (p.1, p.2 + v) else p)) k = some (w + v) := by
  induction d with
  | nil => simp [lookupKey] at h
  | cons p rest ih =>
    by_cases hp : p.1 = k
    · simp only [lookupKey, hp, if_pos] at h
      simp [lookupKey, hp, Option.some_inj.mp h]
    · simp only [lookupKey, hp, if_neg, not_false_iff] at h
      simp [lookupKey, hp, ih h]

theorem lookupKey_map_addAt_ne {K : Type} [DecidableEq K]
    (d : List (K × ℚ)) (k : K) (v : ℚ) {q : K} (h : q ≠ k) :
    lookupKey (d.map (fun p => if p.1 = k then (p.1, p.2 + v) else p)) q = lookupKey d q := by
  induction d with
  | nil => simp
  | cons p rest ih =>
    by_cases hpq : p.1 = q
    · have hpk : ¬ p.1 = k := by rw [hpq]; exact h
      simp [lookupKey, hpq, hpk, h, ih]
    · by_cases hpk : p.1 = k <;> simp [lookupKey, hpq, hpk, Ne.symm h, h, ih]

theorem lookupKey_tryToAdd_of_some {K : Type} [DecidableEq K]
    {d : List (K × ℚ)} {k : K} {w : ℚ} (v : ℚ) (h : lookupKey d k = some w) :
    lookupKey (tryToAdd d k v) k = some (w + v) := by
  unfold tryToAdd
  rw [h]
  simpa using lookupKey_map_addAt d k v h

theorem lookupKey_tryToAdd_of_none {K : Type} [DecidableEq K]
    {d : List (K × ℚ)} {k : K} (v : ℚ) (h : lookupKey d k = none) :
    lookupKey (tryToAdd d k v) k = some v := by
  unfold tryToAdd
  rw [h]
  simp only [Option.isSome_none, Bool.false_eq_true, if_false]
  rw [lookupKey_append_of_none h]
  simp [lookupKey]

theorem lookupKey_tryToAdd_ne {K : Type} [DecidableEq K]
    (d : List (K × ℚ)) (k : K) (v : ℚ) {q : K} (h : q ≠ k) :
    lookupKey (tryToAdd d k v) q = lookupKey d q := by
  unfold tryToAdd
  split
  · exact lookupKey_map_addAt_ne d k v h
  · match hq : lookupKey d q with
    | some w => exact lookupKey_append_of_some hq
    | none =>
      rw [lookupKey_append_of_none hq]
      simp [lookupKey, Ne.symm h]

theorem map_fst_map_addAt {K : Type} [DecidableEq K] (d : List (K × ℚ)) (k : K) (v : ℚ) :
    (d.map (fun p => if p.1 = k then (p.1, p.2 + v) else p)).map Prod.fst = d.map Prod.fst := by
  induction d with
  | nil => simp
  | cons p rest ih => by_cases hp : p.1 = k <;> simp [hp, ih]

theorem map_fst_tryToAdd {K : Type} [DecidableEq K] (d : List (K × ℚ)) (k : K) (v : ℚ) :
    (tryToAdd d k v).map Prod.fst =
      if (lookupKey d k).isSome then d.map Prod.fst else d.map Prod.fst ++ [k] := by
  unfold tryToAdd
  by_cases h : (lookupKey d k).isSome
  · rw [if_pos h, if_pos h]
    exact map_fst_map_addAt d k v
  · rw [if_neg h, if_neg h]
    simp

theorem nodup_keys_tryToAdd {K : Type} [DecidableEq K]
    {d : List (K × ℚ)} (k : K) (v : ℚ) (h : (d.map Prod.fst).Nodup) :
    ((tryToAdd d k v).map Prod.fst).Nodup := by
  rw [map_fst_tryToAdd]
  split
  · exact h
  · rename_i hnone
    have : lookupKey d k = none := Option.not_isSome_iff_eq_none.mp (by simpa using hnone)
    have hk : k ∉ d.map Prod.fst := (lookupKey_eq_none_iff d k).mp this
    simp [List.nodup_append, h, hk]

theorem nodup_keys_foldl_tryToAdd {K : Type} [DecidableEq K]
    (keyOf : Vacancy → K) (valOf : Vacancy → ℚ) :
    ∀ (vs : List Vacancy) (d : List (K × ℚ)), (d.map Prod.fst).Nodup →
      ((vs.foldl (fun d v => tryToAdd d (keyOf v) (valOf v)) d).map Prod.fst).Nodup := by
  intro vs
  induction vs with
  | nil => intro d h; simpa using h
  | cons v rest ih =>
    intro d h
    exact ih (tryToAdd d (keyOf v) (valOf v)) (nodup_keys_tryToAdd _ _ h)

theorem nodup_keys_accumulate {K : Type} [DecidableEq K]
    (vs : List Vacancy) (keyOf : Vacancy → K) (valOf : Vacancy → ℚ) :
    ((accumulate vs keyOf valOf).map Prod.fst).Nodup :=
  nodup_keys_foldl_tryToAdd keyOf valOf vs [] (by simp)

/-! ### Claim C10: the accumulator contract -/

/-- C10: `tryToAdd d k v` holds `d[k] + v` at `k` when `k` was present,
holds `v` at `k` when it was not, and leaves every other key unchanged. -/
theorem tryToAdd_contract {K : Type} [DecidableEq K] (d : List (K × ℚ)) (k : K) (v : ℚ) :
    (∀ w, lookupKey d k = some w → lookupKey (tryToAdd d k v) k = some (w + v))
    ∧ (lookupKey d k = none → lookupKey (tryToAdd d k v) k = some v)
    ∧ (∀ q, q ≠ k → lookupKey (tryToAdd d k v) q = lookupKey d q) :=
  ⟨fun _ h => lookupKey_tryToAdd_of_some v h,
   fun h => lookupKey_tryToAdd_of_none v h,
   fun _ h => lookupKey_tryToAdd_ne d k v h⟩

/-- C10 witness: the two doctest examples of `tryToAdd`, obtained from
`tryToAdd_contract` at concrete inputs. -/
theorem tryToAdd_contract_witness :
    lookupKey (tryToAdd [("1", (1:ℚ))] "1" 1) "1" = some 2
    ∧ lookupKey (tryToAdd [("1", (1:ℚ))] "2" 2) "2" = some 2
    ∧ lookupKey (tryToAdd [("1", (1:ℚ))] "2" 2) "1" = some 1 := by
  refine ⟨?_, ?_, ?_⟩
  · have h := (tryToAdd_contract [("1", (1:ℚ))] "1" 1).1 1 (by simp [lookupKey])
    norm_num at h
    exact h
  · exact (tryToAdd_contract [("1", (1:ℚ))] "2" 2).2.1 (by simp [lookupKey])
  · rw [(tryToAdd_contract [("1", (1:ℚ))] "2" 2).2.2 "1" (by simp)]
    simp [lookupKey]

/-! ### Claim C6: the ingestion row filter -/

/-- C6: `otherLines` keeps, in their original order and unchanged, exactly
the rows with no empty field whose field count matches the header row. -/
theorem otherLines_contract (firstLine : List String) (lines : List (List String)) :
    List.Sublist (otherLines firstLine lines) lines
    ∧ ∀ line, line ∈ otherLines firstLine lines ↔
        line ∈ lines ∧ ¬ ("" ∈ line) ∧ line.length = firstLine.length := by
  constructor
  · exact List.filter_sublist lines
  · intro line
    simp only [otherLines, List.mem_filter, Bool.and_eq_true, Bool.not_eq_true',
      beq_iff_eq, List.contains, List.elem_eq_mem, decide_eq_false_iff_not]

/-! ### Claim C9: unknown currency is the only construction failure -/

/-- C9: for parsed salary bounds, `Salary` construction fails with the
currency lookup error exactly when the currency code is missing from
`currency_to_rub`, and succeeds for every known code. -/
theorem mkSalary_error_iff (f t : ℚ) (c : String) :
    ((∃ e, mkSalary f t c = Except.error e) ↔ lookupKey currency_to_rub c = none)
    ∧ ((lookupKey currency_to_rub c).isSome → ∃ s, mkSalary f t c = Except.ok s) := by
  unfold mkSalary
  cases h : lookupKey currency_to_rub c <;> simp [h]

/-- C9 witness: a known code ("USD") constructs, an unknown code ("XXX")
fails, both via `mkSalary_error_iff`. -/
theorem mkSalary_error_iff_witness :
    (∃ s, mkSalary 1 2 "USD" = Except.ok s) ∧ ∃ e, mkSalary 1 2 "XXX" = Except.error e := by
  constructor
  · exact (mkSalary_error_iff 1 2 "USD").2 (by simp [currency_to_rub, lookupKey])
  · exact (mkSalary_error_iff 1 2 "XXX").1.mpr (by simp [currency_to_rub, lookupKey])

/-! ### Claim C1: the salary construction formula -/

/-- C1: for a row with parsed bounds `f`, `t` and a currency known at rate
`rate`, construction yields the average of the floored bounds, itself not
floored, and the converted salary `rate * average`. -/
theorem mkSalary_formula (f t : ℚ) (c : String) (rate : ℚ)
    (hr : lookupKey currency_to_rub c = some rate) :
    mkSalary f t c =
      Except.ok { salary_from := ⌊f⌋, salary_to := ⌊t⌋, salary_currency := c,
                  averageSalary := ((⌊f⌋ : ℚ) + (⌊t⌋ : ℚ)) / 2,
                  salaryRub := rate * (((⌊f⌋ : ℚ) + (⌊t⌋ : ℚ)) / 2) } := by
  unfold mkSalary
  rw [hr]
  simp [add_comm]

/-- C1 witness: the doctest `Salary(100, 200, "EUR")`: average 150, kept
unfloored, and converted salary 59.90 * 150 = 8985. -/
theorem mkSalary_formula_witness :
    mkSalary 100 200 "EUR" = Except.ok ⟨100, 200, "EUR", 150, 8985⟩ := by
  rw [mkSalary_formula 100 200 "EUR" 59.90 (by simp [currency_to_rub, lookupKey])]
  norm_num

/-! ### Claim C5: the averaging step -/

/-- C5: when the sum map covers every key of the count map with a nonzero
count, `getAverageSalary` maps each count entry to the floored quotient,
or to 0 at a zero count. -/
theorem getAverageSalary_formula {K : Type} [DecidableEq K]
    (count sum : List (K × ℚ))
    (hdom : ∀ k c, (k, c) ∈ count → c ≠ 0 → (lookupKey sum k).isSome) :
    getAverageSalary count sum =
      some (count.map (fun p =>
        (p.1, if p.2 = 0 then 0 else ⌊(lookupKey sum p.1).getD 0 / p.2⌋))) := by
  induction count with
  | nil => simp [getAverageSalary]
  | cons p rest ih =>
    have hrest : ∀ k c, (k, c) ∈ rest → c ≠ 0 → (lookupKey sum k).isSome :=
      fun k c hm => hdom k c (List.mem_cons_of_mem p hm)
    by_cases hz : p.2 = 0
    · simp [getAverageSalary, hz, ih hrest]
    · have hs : (lookupKey sum p.1).isSome := hdom p.1 p.2 (by simp) hz
      obtain ⟨s, hs'⟩ := Option.isSome_iff_exists.mp hs
      simp [getAverageSalary, hz, hs', ih hrest]

/-- C5 witness: count `{"2007": 2}` and sum `{"2007": 10}` average to
`{"2007": 5}`, via `getAverageSalary_formula`. -/
theorem getAverageSalary_formula_witness :
    getAverageSalary [("2007", (2:ℚ))] [("2007", (10:ℚ))] = some [("2007", 5)] := by
  rw [getAverageSalary_formula [("2007", (2:ℚ))] [("2007", (10:ℚ))]
    (fun k c hm _ => by simp at hm; simp [hm.1, lookupKey])]
  norm_num [lookupKey]

/-! ### Sorting lemmas for the ranking step -/

instance {K V : Type} [LinearOrder V] : IsTotal (K × V) descBySnd :=
  ⟨fun a b => le_total b.2 a.2⟩

instance {K V : Type} [LinearOrder V] : IsTrans (K × V) descBySnd :=
  ⟨fun _ _ _ hab hbc => le_trans hbc hab⟩

theorem filter_orderedInsert {α : Type} (r : α → α → Prop) [DecidableRel r]
    (p : α → Bool) (htie : ∀ x y, p x = true → p y = true → r x y) (a : α) :
    ∀ l : List α, (List.orderedInsert r a l).filter p =
      if p a then a :: l.filter p else l.filter p := by
  intro l
  induction l with
  | nil => simp [List.orderedInsert, List.filter_cons]
  | cons b l ih =>
    by_cases hr : r a b
    · simp only [List.orderedInsert, if_pos hr]
      by_cases hpa : p a <;> simp [List.filter_cons, hpa]
    · simp only [List.orderedInsert, if_neg hr]
      by_cases hpa : p a
      · have hpb : p b = false := by
          by_contra hpb
          exact hr (htie a b hpa (Bool.not_eq_false (p b) ▸ hpb))
        simp [List.filter_cons, hpa, hpb, ih]
      · simp only [List.filter_cons, ih, if_neg hpa]

theorem filter_insertionSort {α : Type} (r : α → α → Prop) [DecidableRel r]
    (p : α → Bool) (htie : ∀ x y, p x = true → p y = true → r x y) :
    ∀ l : List α, (List.insertionSort r l).filter p = l.filter p := by
  intro l
  induction l with
  | nil => rfl
  | cons a l ih =>
    simp only [List.insertionSort]
    rw [filter_orderedInsert r p htie]
    by_cases hpa : p a <;> simp [hpa, ih, List.filter_cons]

/-! ### Claim C4: the ranking step -/

/-- C4: `getSortedDict` returns at most 10 entries, sorted by value in
descending order, and entries of equal value keep their original relative
order (the output's ties form a sublist of the input's ties). -/
theorem getSortedDict_contract {K V : Type} [LinearOrder V] (d : List (K × V)) :
    (getSortedDict d).length ≤ 10
    ∧ (getSortedDict d).Pairwise (fun a b => b.2 ≤ a.2)
    ∧ ∀ v : V, List.Sublist ((getSortedDict d).filter (fun q => decide (q.2 = v)))
        (d.filter (fun q => decide (q.2 = v))) := by
  refine ⟨?_, ?_, ?_⟩
  · simp [getSortedDict, List.length_take_le]
  · have hs : (List.insertionSort descBySnd d).Pairwise descBySnd :=
      List.sorted_insertionSort descBySnd d
    exact hs.sublist (List.take_sublist 10 _)
  · intro v
    have htie : ∀ x y : K × V, decide (x.2 = v) = true → decide (y.2 = v) = true →
        descBySnd x y := by
      intro x y hx hy
      simp only [decide_eq_true_eq] at hx hy
      unfold descBySnd
      rw [hx, hy]
    have hfil := filter_insertionSort descBySnd (fun q : K × V => decide (q.2 = v)) htie d
    have hsub := List.Sublist.filter (fun q : K × V => decide (q.2 = v))
      (List.take_sublist 10 (List.insertionSort descBySnd d))
    rw [hfil] at hsub
    exact hsub

/-! ### Lemmas about the zero-fill step `updateKeys` -/

theorem updateKeys_cons {K : Type} [DecidableEq K] (y : K) (ys : List K)
    (d : List (K × ℚ)) :
    updateKeys (y :: ys) d =
      updateKeys ys (if (lookupKey d y).isSome then d else d ++ [(y, 0)]) := rfl

theorem lookupKey_updateKeys_of_some {K : Type} [DecidableEq K]
    {d : List (K × ℚ)} {k : K} {w : ℚ} (ys : List K) (h : lookupKey d k = some w) :
    lookupKey (updateKeys ys d) k = some w := by
  induction ys generalizing d with
  | nil => exact h
  | cons y ys ih =>
    rw [updateKeys_cons]
    split
    · exact ih h
    · exact ih (lookupKey_append_of_some h)

theorem lookupKey_updateKeys_of_mem {K : Type} [DecidableEq K]
    {ys : List K} {k : K} (d : List (K × ℚ))
    (hk : k ∈ ys) (h : lookupKey d k = none) :
    lookupKey (updateKeys ys d) k = some 0 := by
  induction ys generalizing d with
  | nil => exact absurd hk (List.not_mem_nil k)
  | cons y ys ih =>
    rw [updateKeys_cons]
    by_cases hky : k = y
    · subst hky
      rw [if_neg (by simp [h])]
      exact lookupKey_updateKeys_of_some ys
        (by rw [lookupKey_append_of_none h]; simp [lookupKey])
    · have hmem : k ∈ ys := by
        rcases List.mem_cons.mp hk with h1 | h1
        · exact absurd h1 hky
        · exact h1
      split
      · exact ih _ hmem h
      · refine ih _ hmem ?_
        rw [lookupKey_append_of_none h]
        have hyk : ¬ y = k := fun hh => hky hh.symm
        simp [lookupKey, hyk]

theorem map_fst_updateKeys {K : Type} [DecidableEq K] :
    ∀ (ys : List K), ys.Nodup → ∀ (d : List (K × ℚ)),
      (updateKeys ys d).map Prod.fst =
        d.map Prod.fst ++ ys.filter (fun y => decide (y ∉ d.map Prod.fst)) := by
  intro ys
  induction ys with
  | nil => intro _ d; simp [updateKeys]
  | cons y ys ih =>
    intro hnd d
    have hy_not : y ∉ ys := (List.nodup_cons.mp hnd).1
    have hnd2 : ys.Nodup := (List.nodup_cons.mp hnd).2
    rw [updateKeys_cons]
    by_cases hy : (lookupKey d y).isSome
    · have hymem : y ∈ d.map Prod.fst := by
        by_contra hcon
        rw [← lookupKey_eq_none_iff] at hcon
        simp [hcon] at hy
      rw [if_pos hy, ih hnd2 d, List.filter_cons]
      simp [hymem]
    · have hynone : lookupKey d y = none := Option.not_isSome_iff_eq_none.mp (by simpa using hy)
      have hymem : y ∉ d.map Prod.fst := (lookupKey_eq_none_iff d y).mp hynone
      rw [if_neg hy, ih hnd2 (d ++ [(y, 0)])]
      have hkeys : (d ++ [(y, 0)]).map Prod.fst = d.map Prod.fst ++ [y] := by simp
      rw [hkeys]
      have hfil : ys.filter (fun z => decide (z ∉ d.map Prod.fst ++ [y])) =
          ys.filter (fun z => decide (z ∉ d.map Prod.fst)) := by
        refine List.filter_congr ?_
        intro z hz
        have hzy : z ≠ y := fun hh => hy_not (hh ▸ hz)
        simp [List.mem_append, hzy]
      rw [hfil, List.filter_cons]
      simp [hymem, List.append_assoc]

/-! ### Key-set lemmas about the averaging step -/

theorem map_fst_getAverageSalary {K : Type} [DecidableEq K] :
    ∀ (cnt : List (K × ℚ)) (sum : List (K × ℚ)) (avg : List (K × Int)),
      getAverageSalary cnt sum = some avg → avg.map Prod.fst = cnt.map Prod.fst := by
  intro cnt
  induction cnt with
  | nil =>
    intro sum avg h
    simp only [getAverageSalary, Option.some_inj] at h
    simp [← h]
  | cons p rest ih =>
    intro sum avg h
    by_cases hz : p.2 = 0
    · simp only [getAverageSalary, if_pos hz] at h
      obtain ⟨tail, htail, rfl⟩ := Option.map_eq_some'.mp h
      simp [ih sum tail htail]
    · simp only [getAverageSalary, if_neg hz] at h
      cases hs : lookupKey sum p.1 with
      | none => rw [hs] at h; exact Option.noConfusion h
      | some s =>
        rw [hs] at h
        obtain ⟨tail, htail, rfl⟩ := Option.map_eq_some'.mp h
        simp [ih sum tail htail]

theorem lookupKey_getAverageSalary_zero {K : Type} [DecidableEq K] :
    ∀ (cnt : List (K × ℚ)) (sum : List (K × ℚ)) (avg : List (K × Int)) (y : K),
      getAverageSalary cnt sum = some avg → lookupKey cnt y = some 0 →
      lookupKey avg y = some 0 := by
  intro cnt
  induction cnt with
  | nil => intro sum avg y _ hy; exact Option.noConfusion hy
  | cons p rest ih =>
    intro sum avg y h hy
    by_cases hpy : p.1 = y
    · have hz : p.2 = 0 := by
        simp only [lookupKey, if_pos hpy] at hy
        exact Option.some_inj.mp hy
      simp only [getAverageSalary, if_pos hz] at h
      obtain ⟨tail, _, rfl⟩ := Option.map_eq_some'.mp h
      simp [lookupKey, hpy]
    · have hy2 : lookupKey rest y = some 0 := by
        simpa only [lookupKey, if_neg hpy] using hy
      by_cases hz : p.2 = 0
      · simp only [getAverageSalary, if_pos hz] at h
        obtain ⟨tail, htail, rfl⟩ := Option.map_eq_some'.mp h
        simpa only [lookupKey, if_neg hpy] using ih sum tail y htail hy2
      · simp only [getAverageSalary, if_neg hz] at h
        cases hs : lookupKey sum p.1 with
        | none => rw [hs] at h; exact Option.noConfusion h
        | some s =>
          rw [hs] at h
          obtain ⟨tail, htail, rfl⟩ := Option.map_eq_some'.mp h
          simpa only [lookupKey, if_neg hpy] using ih sum tail y htail hy2

theorem lookupKey_filter_eq_none {K V : Type} [DecidableEq K] :
    ∀ (l : List (K × V)), (l.map Prod.fst).Nodup → ∀ (p : K × V → Bool) (k : K) (c : V),
      lookupKey l k = some c → p (k, c) = false → lookupKey (l.filter p) k = none := by
  intro l
  induction l with
  | nil => intro _ p k c h _; exact Option.noConfusion h
  | cons q rest ih =>
    intro hnd p k c h hp
    rw [List.map_cons, List.nodup_cons] at hnd
    have hq_not : q.1 ∉ rest.map Prod.fst := hnd.1
    have hnd2 : (rest.map Prod.fst).Nodup := hnd.2
    by_cases hqk : q.1 = k
    · have hqc : q.2 = c := by
        simp only [lookupKey, if_pos hqk] at h
        exact Option.some_inj.mp h
      have hq_eq : q = (k, c) := Prod.ext hqk hqc
      have hrest_none : lookupKey (rest.filter p) k = none := by
        rw [lookupKey_eq_none_iff]
        intro hmem
        obtain ⟨pr, hpr, hfst⟩ := List.mem_map.mp hmem
        exact (hqk ▸ hq_not)
          (List.mem_map.mpr ⟨pr, List.mem_of_mem_filter hpr, hfst⟩)
      rw [List.filter_cons, hq_eq]
      simp [hp, hrest_none]
    · have h2 : lookupKey rest k = some c := by
        simpa only [lookupKey, if_neg hqk] using h
      rw [List.filter_cons]
      by_cases hpq : p q
      · simp only [hpq, if_pos]
        simp only [lookupKey, if_neg hqk]
        exact ih hnd2 p k c h2 hp
      · simp only [hpq]
        simp only [Bool.false_eq_true, if_false]
        exact ih hnd2 p k c h2 hp

/-! ### Membership in the full year set -/

theorem mem_getYears_iff (vs : List Vacancy) (y : Int) :
    y ∈ getYears vs ↔ y ∈ vs.map Vacancy.year := by
  simp [getYears, List.mem_insertionSort, List.mem_dedup]

theorem nodup_getYears (vs : List Vacancy) : (getYears vs).Nodup :=
  (List.perm_insertionSort _ _).nodup_iff.mpr (List.nodup_dedup _)

theorem sorted_getYears (vs : List Vacancy) :
    List.Sorted (fun a b : Int => a ≤ b) (getYears vs) :=
  List.sorted_insertionSort _ _

/-! ### Claim C2: the zero-fill invariant -/

/-- C2: in year mode, a year present in the full record list but absent
from the filtered subset's accumulated count map comes out of `getKey`
with count 0 and average 0. -/
theorem getKey_zero_fill (full vs : List Vacancy)
    (avg : List (Int × Int)) (cnt : List (Int × ℚ))
    (h : getKey (getYears full) vs Vacancy.year false = some (avg, cnt))
    (y : Int) (hy : y ∈ full.map Vacancy.year)
    (hmiss : lookupKey (accumulate vs Vacancy.year (fun _ => 1)) y = none) :
    lookupKey cnt y = some 0 ∧ lookupKey avg y = some 0 := by
  simp only [getKey, Bool.false_eq_true, if_false] at h
  rw [Option.map_eq_some'] at h
  obtain ⟨a, ha, heq⟩ := h
  rw [Prod.mk.injEq] at heq
  obtain ⟨rfl, rfl⟩ := heq
  have hyy : y ∈ getYears full := (mem_getYears_iff full y).mpr hy
  have hcnt := lookupKey_updateKeys_of_mem
    (accumulate vs Vacancy.year (fun _ => 1)) hyy hmiss
  exact ⟨hcnt, lookupKey_getAverageSalary_zero _ _ a y ha hcnt⟩

/-- C2 witness: a one-record full dataset and the empty filtered subset;
the year 2007 is zero-filled into both output maps, via `getKey_zero_fill`. -/
theorem getKey_zero_fill_witness :
    lookupKey [((2007:Int), (0:ℚ))] 2007 = some 0
    ∧ lookupKey [((2007:Int), (0:Int))] 2007 = some 0 := by
  have h := getKey_zero_fill [{ year := 2007, area_name := "A", salaryRub := 10 }] []
    [(2007, 0)] [(2007, 0)]
    (by simp [getKey, getYears, accumulate, updateKeys, lookupKey, getAverageSalary])
    2007 (by simp) (by simp [accumulate, lookupKey])
  exact h

/-! ### Claim C3: the area pruning rule -/

/-- C3: in area mode, an area whose accumulated count share is at most 1%
of the input length is pruned from the count map before averaging and
appears in neither output map, and the area branch is independent of the
zero-fill year set. -/
theorem getKey_area_pruning (allYears : List String) (vs : List Vacancy)
    (avg : List (String × Int)) (cnt : List (String × ℚ))
    (h : getKey allYears vs Vacancy.area_name true = some (avg, cnt))
    (a : String) (c : ℚ)
    (hacc : lookupKey (accumulate vs Vacancy.area_name (fun _ => 1)) a = some c)
    (hle : c / (vs.length : ℚ) ≤ 0.01) :
    lookupKey cnt a = none ∧ lookupKey avg a = none
    ∧ ∀ allYears2 : List String,
        getKey allYears2 vs Vacancy.area_name true = some (avg, cnt) := by
  simp only [getKey, if_pos] at h
  rw [Option.map_eq_some'] at h
  obtain ⟨b, hb, heq⟩ := h
  rw [Prod.mk.injEq] at heq
  obtain ⟨rfl, rfl⟩ := heq
  have hp : (fun it : String × ℚ => decide (it.2 / (vs.length : ℚ) > 0.01)) (a, c) = false := by
    simp only [decide_eq_false_iff_not, not_lt]
    exact hle
  have hcnt := lookupKey_filter_eq_none _
    (nodup_keys_accumulate vs Vacancy.area_name (fun _ => 1))
    (fun it : String × ℚ => decide (it.2 / (vs.length : ℚ) > 0.01)) a c hacc hp
  refine ⟨hcnt, ?_, ?_⟩
  · rw [lookupKey_eq_none_iff, map_fst_getAverageSalary _ _ b hb, ← lookupKey_eq_none_iff]
    exact hcnt
  · intro allYears2
    simp only [getKey, if_pos]
    rw [hb]
    rfl

/-- The accumulation step over a run of identical records adds the
record's value once per repetition to its single key. -/
theorem foldl_tryToAdd_replicate {K : Type} [DecidableEq K]
    (keyOf : Vacancy → K) (valOf : Vacancy → ℚ) (v : Vacancy) :
    ∀ (n : ℕ) (q : ℚ),
      (List.replicate n v).foldl (fun d u => tryToAdd d (keyOf u) (valOf u)) [(keyOf v, q)]
        = [(keyOf v, q + n * valOf v)] := by
  intro n
  induction n with
  | zero => intro q; simp
  | succ n ih =>
    intro q
    rw [List.replicate_succ, List.foldl_cons]
    have hstep : tryToAdd [(keyOf v, q)] (keyOf v) (valOf v) = [(keyOf v, q + valOf v)] := by
      simp [tryToAdd, lookupKey]
    rw [hstep, ih]
    have harith : q + valOf v + (n : ℚ) * valOf v = q + ((n : ℕ) + 1 : ℕ) * valOf v := by
      push_cast
      ring
    rw [harith]

/-- Closed form of the accumulation over the pruning dataset. -/
theorem area_demo_accum (valOf : Vacancy → ℚ) :
    accumulate area_demo Vacancy.area_name valOf
      = [("M", valOf mRec + 98 * valOf mRec), ("S", valOf sRec)] := by
  unfold accumulate area_demo
  rw [List.foldl_append]
  have hrepl : List.foldl (fun d v => tryToAdd d (Vacancy.area_name v) (valOf v))
      ([] : List (String × ℚ)) (List.replicate 99 mRec)
      = [(Vacancy.area_name mRec, valOf mRec + 98 * valOf mRec)] := by
    rw [show (99:ℕ) = 98 + 1 from rfl, List.replicate_succ, List.foldl_cons]
    have h0 : tryToAdd ([] : List (String × ℚ)) (Vacancy.area_name mRec) (valOf mRec)
        = [(Vacancy.area_name mRec, valOf mRec)] := by
      simp [tryToAdd, lookupKey]
    rw [h0]
    have := foldl_tryToAdd_replicate Vacancy.area_name valOf mRec 98 (valOf mRec)
    simpa using this
  rw [hrepl]
  rw [List.foldl_cons, List.foldl_nil]
  have hs : tryToAdd [(Vacancy.area_name mRec, valOf mRec + 98 * valOf mRec)]
      (Vacancy.area_name sRec) (valOf sRec)
      = [(Vacancy.area_name mRec, valOf mRec + 98 * valOf mRec),
         (Vacancy.area_name sRec, valOf sRec)] := by
    simp [tryToAdd, lookupKey, mRec, sRec]
  rw [hs]
  simp [mRec, sRec]

/-- The accumulated count of the 1%-share area "S" is 1. -/
theorem area_demo_accum_count_S :
    lookupKey (accumulate area_demo Vacancy.area_name (fun _ => 1)) "S" = some 1 := by
  rw [area_demo_accum]
  simp [lookupKey, sRec]

/-- The pruning dataset has 100 records. -/
theorem area_demo_length : area_demo.length = 100 := by
  simp [area_demo]

/-- `getKey` in area mode on the pruning dataset keeps only area "M". -/
theorem area_demo_getKey :
    getKey ([] : List String) area_demo Vacancy.area_name true
      = some ([("M", 10)], [("M", 99)]) := by
  have hsum := area_demo_accum Vacancy.salaryRub
  have hcnt := area_demo_accum (fun _ => 1)
  simp only [getKey, if_pos]
  rw [hsum, hcnt, area_demo_length]
  norm_num [mRec, sRec, List.filter_cons, getAverageSalary, lookupKey]

/-- C3 witness: 99 records in area "M" and one in area "S"; the 1% share
of "S" is pruned from both output maps and the result is independent of
the year set, via `getKey_area_pruning`. -/
theorem getKey_area_pruning_witness :
    lookupKey [("M", (99:ℚ))] "S" = none
    ∧ lookupKey [("M", (10:Int))] "S" = none
    ∧ getKey ["ignored"] area_demo Vacancy.area_name true
        = some ([("M", 10)], [("M", 99)]) := by
  have h := getKey_area_pruning [] area_demo [("M", 10)] [("M", 99)]
    area_demo_getKey "S" 1 area_demo_accum_count_S
    (by rw [area_demo_length]; norm_num)
  exact ⟨h.1, h.2.1, h.2.2 ["ignored"]⟩

/-! ### Claim C7: order of the year-grouped output -/

/-- C7 counterexample: with records arriving in descending year order the
year-count map comes out with keys `[2010, 2007]`, which is not in
ascending key order. -/
theorem getKey_year_order_cex :
    (getKey (getYears demoVacancies) demoVacancies Vacancy.year false).map
        (fun p => p.2.map Prod.fst) = some [2010, 2007]
    ∧ ¬ List.Sorted (fun a b : Int => a ≤ b) [2010, 2007] := by
  constructor
  · simp [getKey, getYears, accumulate, tryToAdd, lookupKey, updateKeys,
      getAverageSalary, demoVacancies]
  · intro hcon
    have := List.rel_of_sorted_cons hcon 2007 (by simp)
    omega

/-- C7 (amended): in year mode the output keys are the subset's years in
first-occurrence order followed by the remaining years of the full list in
ascending order; the average map carries the same keys, and the appended
full-year set is ascending. -/
theorem getKey_year_key_order (full vs : List Vacancy)
    (avg : List (Int × Int)) (cnt : List (Int × ℚ))
    (h : getKey (getYears full) vs Vacancy.year false = some (avg, cnt)) :
    cnt.map Prod.fst =
      (accumulate vs Vacancy.year (fun _ => 1)).map Prod.fst ++
        (getYears full).filter
          (fun y => decide (y ∉ (accumulate vs Vacancy.year (fun _ => 1)).map Prod.fst))
    ∧ avg.map Prod.fst = cnt.map Prod.fst
    ∧ List.Sorted (fun a b : Int => a ≤ b) (getYears full) := by
  simp only [getKey, Bool.false_eq_true, if_false] at h
  rw [Option.map_eq_some'] at h
  obtain ⟨b, hb, heq⟩ := h
  rw [Prod.mk.injEq] at heq
  obtain ⟨rfl, rfl⟩ := heq
  refine ⟨map_fst_updateKeys (getYears full) (nodup_getYears full) _, ?_,
    sorted_getYears full⟩
  exact map_fst_getAverageSalary _ _ b hb

/-- C7 witness: the amended ordering at the two-record demo dataset, via
`getKey_year_key_order`. -/
theorem getKey_year_key_order_witness :
    [(2010:Int), 2007] =
      (accumulate demoVacancies Vacancy.year (fun _ => 1)).map Prod.fst ++
        (getYears demoVacancies).filter
          (fun y => decide (y ∉ (accumulate demoVacancies Vacancy.year (fun _ => 1)).map Prod.fst))
    ∧ List.Sorted (fun a b : Int => a ≤ b) (getYears demoVacancies) := by
  have h := getKey_year_key_order demoVacancies demoVacancies
    [(2010, 10), (2007, 20)] [(2010, 1), (2007, 1)]
    (by simp [getKey, getYears, accumulate, tryToAdd, lookupKey, updateKeys,
      getAverageSalary, demoVacancies])
  exact ⟨by simpa using h.1, h.2.2⟩

/-! ### Lemmas about the Python integer parser -/

theorem space_digit_disjoint :
    ∀ s ∈ pySpaceCodes, ∀ z ∈ ndZeroPoints, ¬ (z ≤ s ∧ s < z + 10) := by decide

theorem pyDigit_spec {c : Char} (h : (pyDigitVal? c).isSome = true) :
    ∃ z ∈ ndZeroPoints, z ≤ c.toNat ∧ c.toNat < z + 10 := by
  unfold pyDigitVal? at h
  cases hf : ndZeroPoints.find? (fun z => decide (z ≤ c.toNat ∧ c.toNat < z + 10)) with
  | none => rw [hf] at h; simp at h
  | some z =>
    have hp := List.find?_some hf
    simp only [decide_eq_true_eq] at hp
    exact ⟨z, List.mem_of_find?_eq_some hf, hp⟩

theorem pyIsSpace_eq_false_of_digit {c : Char} (h : (pyDigitVal? c).isSome = true) :
    pyIsSpace c = false := by
  cases hs : pyIsSpace c
  · rfl
  · exfalso
    have hmem : c.toNat ∈ pySpaceCodes := by
      simpa [pyIsSpace, List.contains, List.elem_eq_mem] using hs
    obtain ⟨z, hzmem, hz⟩ := pyDigit_spec h
    exact space_digit_disjoint c.toNat hmem z hzmem hz

theorem dropWhile_ws_eq_self (l : List Char)
    (h : ∀ c ∈ l, pyIsSpace c = false) :
    l.dropWhile pyIsSpace = l := by
  cases l with
  | nil => rfl
  | cons c rest =>
    rw [List.dropWhile_cons, if_neg]
    rw [h c (List.mem_cons_self c rest)]
    simp

theorem pyStrip_all_digits (l : List Char)
    (h : ∀ c ∈ l, (pyDigitVal? c).isSome = true) :
    pyStrip l = l := by
  have hws : ∀ c ∈ l, pyIsSpace c = false :=
    fun c hc => pyIsSpace_eq_false_of_digit (h c hc)
  unfold pyStrip
  rw [dropWhile_ws_eq_self l hws,
    dropWhile_ws_eq_self l.reverse (fun c hc => hws c (List.mem_reverse.mp hc)),
    List.reverse_reverse]

theorem mem_pyStrip {l : List Char} {c : Char} (h : c ∈ l) :
    c ∈ pyStrip l ∨ pyIsSpace c = true := by
  unfold pyStrip
  rw [← List.takeWhile_append_dropWhile (p := pyIsSpace) (l := l)] at h
  rcases List.mem_append.mp h with h1 | h2
  · exact Or.inr (List.mem_takeWhile_imp h1)
  · have h2r : c ∈ (l.dropWhile pyIsSpace).reverse := List.mem_reverse.mpr h2
    rw [← List.takeWhile_append_dropWhile (p := pyIsSpace)
      (l := (l.dropWhile pyIsSpace).reverse)] at h2r
    rcases List.mem_append.mp h2r with h3 | h4
    · exact Or.inr (List.mem_takeWhile_imp h3)
    · exact Or.inl (List.mem_reverse.mpr h4)

theorem pyDigitsCore_all_digits :
    ∀ (l : List Char) (acc : Nat), (∀ c ∈ l, (pyDigitVal? c).isSome = true) →
      pyDigitsCore acc l = some (l.foldl (fun a c => a * 10 + digitVal c) acc) := by
  intro l
  induction l with
  | nil => intro acc _; rfl
  | cons c rest ih =>
    intro acc h
    have hc : (pyDigitVal? c).isSome = true := h c (List.mem_cons_self c rest)
    have hstep : pyDigitsCore acc (c :: rest) = pyDigitsCore (acc * 10 + digitVal c) rest := by
      rw [pyDigitsCore.eq_def]
      simp [hc]
    rw [hstep, List.foldl_cons]
    exact ih _ (fun d hd => h d (List.mem_cons_of_mem c hd))

theorem pyDigitsCore_chars_fuel :
    ∀ (fuel : Nat) (l : List Char), l.length ≤ fuel →
      ∀ (acc n : Nat), pyDigitsCore acc l = some n →
      ∀ c ∈ l, (pyDigitVal? c).isSome = true ∨ c = '_' := by
  intro fuel
  induction fuel with
  | zero =>
    intro l hl acc n _ c hc
    rw [List.length_eq_zero.mp (Nat.le_zero.mp hl)] at hc
    exact absurd hc (List.not_mem_nil c)
  | succ fuel ih =>
    intro l hl acc n h c hc
    cases l with
    | nil => exact absurd hc (List.not_mem_nil c)
    | cons c0 rest =>
      rw [pyDigitsCore.eq_def] at h
      dsimp only at h
      have hrest : rest.length ≤ fuel := by
        simp only [List.length_cons] at hl
        omega
      by_cases hd : (pyDigitVal? c0).isSome
      · rw [if_pos hd] at h
        rcases List.mem_cons.mp hc with rfl | hc2
        · exact Or.inl hd
        · exact ih rest hrest _ n h c hc2
      · rw [if_neg hd] at h
        by_cases hu : c0 = '_'
        · rw [if_pos hu] at h
          cases rest with
          | nil =>
            dsimp only at h
            exact Option.noConfusion h
          | cons c2 rest2 =>
            dsimp only at h
            have hrest2 : rest2.length ≤ fuel := le_trans (by simp) hrest
            by_cases h2 : (pyDigitVal? c2).isSome
            · rw [if_pos h2] at h
              rcases List.mem_cons.mp hc with rfl | hc2
              · exact Or.inr hu
              · rcases List.mem_cons.mp hc2 with rfl | hc3
                · exact Or.inl h2
                · exact ih rest2 hrest2 _ n h c hc3
            · rw [if_neg h2] at h
              exact Option.noConfusion h
        · rw [if_neg hu] at h
          exact Option.noConfusion h

theorem pyDigitsCore_chars (l : List Char) (acc n : Nat)
    (h : pyDigitsCore acc l = some n) :
    ∀ c ∈ l, (pyDigitVal? c).isSome = true ∨ c = '_' :=
  pyDigitsCore_chars_fuel l.length l le_rfl acc n h

theorem pyDigits_all_digits (c : Char) (rest : List Char)
    (hc : (pyDigitVal? c).isSome = true)
    (h : ∀ d ∈ rest, (pyDigitVal? d).isSome = true) :
    pyDigits (c :: rest) =
      some ((c :: rest).foldl (fun a d => a * 10 + digitVal d) 0) := by
  rw [pyDigits, if_pos hc, List.foldl_cons]
  have : 0 * 10 + digitVal c = digitVal c := by simp
  rw [this]
  exact pyDigitsCore_all_digits rest (digitVal c) h

theorem pyDigits_chars (l : List Char) (n : Nat) (h : pyDigits l = some n) :
    ∀ c ∈ l, (pyDigitVal? c).isSome = true ∨ c = '_' := by
  cases l with
  | nil => exact fun c hc => absurd hc (List.not_mem_nil c)
  | cons c0 rest =>
    rw [pyDigits] at h
    by_cases hd : (pyDigitVal? c0).isSome
    · rw [if_pos hd] at h
      intro c hc
      rcases List.mem_cons.mp hc with rfl | hc2
      · exact Or.inl hd
      · exact pyDigitsCore_chars rest _ n h c hc2
    · rw [if_neg hd] at h
      exact Option.noConfusion h

theorem pyIntChars_eq_digits_of_head {l : List Char} {c : Char} {rest : List Char}
    (hm : pyStrip l = c :: rest) (hplus : c ≠ '+') (hminus : c ≠ '-') :
    pyIntChars l = (pyDigits (c :: rest)).map (fun n => (n : Int)) := by
  unfold pyIntChars
  rw [hm]
  split
  · rename_i rest2 heq
    injection heq with h1 _
    exact absurd h1 hplus
  · rename_i rest2 heq
    injection heq with h1 _
    exact absurd h1 hminus
  · rfl

theorem pyIntChars_chars (l : List Char) (n : Int) (h : pyIntChars l = some n)
    (c : Char) (hc : c ∈ l) :
    (pyDigitVal? c).isSome = true ∨ pyIsSpace c = true ∨ c = '+' ∨ c = '-' ∨ c = '_' := by
  rcases mem_pyStrip hc with hmem | hws
  · unfold pyIntChars at h
    split at h
    · rename_i rest2 heq
      rw [heq] at hmem
      rcases List.mem_cons.mp hmem with rfl | hc2
      · exact Or.inr (Or.inr (Or.inl rfl))
      · cases hpd : pyDigits rest2 with
        | none => rw [hpd] at h; simp at h
        | some m =>
          rcases pyDigits_chars rest2 m hpd c hc2 with hd | hu
          · exact Or.inl hd
          · exact Or.inr (Or.inr (Or.inr (Or.inr hu)))
    · rename_i rest2 heq
      rw [heq] at hmem
      rcases List.mem_cons.mp hmem with rfl | hc2
      · exact Or.inr (Or.inr (Or.inr (Or.inl rfl)))
      · cases hpd : pyDigits rest2 with
        | none => rw [hpd] at h; simp at h
        | some m =>
          rcases pyDigits_chars rest2 m hpd c hc2 with hd | hu
          · exact Or.inl hd
          · exact Or.inr (Or.inr (Or.inr (Or.inr hu)))
    · cases hpd : pyDigits (pyStrip l) with
      | none => rw [hpd] at h; simp at h
      | some m =>
        rcases pyDigits_chars (pyStrip l) m hpd c hmem with hd | hu
        · exact Or.inl hd
        · exact Or.inr (Or.inr (Or.inr (Or.inr hu)))
  · exact Or.inr (Or.inl hws)

/-! ### Claim C8: year extraction from the publication date -/

/-- C8 counterexample: the publication-date string "202" is shorter than 4
characters, yet the year extraction succeeds and returns 202 (Python
`int("202"[:4])` does not fail). -/
theorem vacancyYear_short_cex :
    "202".length < 4 ∧ vacancyYear "202" = some 202 := by
  exact ⟨by decide, by decide⟩

/-- C8 (amended): the year is the leading `min 4 (length)` characters of
the publication date parsed as a Python integer: a nonempty prefix of
decimal digits (even one shorter than 4 characters, in any decimal-digit
script) parses to its decimal value, and the extraction fails when the
prefix contains a character that is not a decimal digit, whitespace as
Python strips it, a sign, or an underscore. -/
theorem vacancyYear_amended (s : String) :
    (s.toList.take 4 ≠ [] →
      (∀ c ∈ s.toList.take 4, (pyDigitVal? c).isSome = true) →
      vacancyYear s =
        some (((s.toList.take 4).foldl (fun a c => a * 10 + digitVal c) 0 : ℕ) : Int))
    ∧ (∀ c ∈ s.toList.take 4,
        pyDigitVal? c = none → pyIsSpace c = false → c ≠ '+' → c ≠ '-' → c ≠ '_' →
        vacancyYear s = none) := by
  constructor
  · intro hne hdig
    obtain ⟨c, rest, hl⟩ := List.exists_cons_of_ne_nil hne
    have hstrip : pyStrip (s.toList.take 4) = s.toList.take 4 :=
      pyStrip_all_digits _ hdig
    have hc : (pyDigitVal? c).isSome = true :=
      hdig c (by rw [hl]; exact List.mem_cons_self c rest)
    have hplus : c ≠ '+' := by
      intro hh
      rw [hh] at hc
      exact absurd hc (by decide)
    have hminus : c ≠ '-' := by
      intro hh
      rw [hh] at hc
      exact absurd hc (by decide)
    unfold vacancyYear
    rw [hl] at hstrip hdig ⊢
    rw [pyIntChars_eq_digits_of_head hstrip hplus hminus]
    rw [pyDigits_all_digits c rest hc
      (fun d hd => hdig d (List.mem_cons_of_mem c hd))]
    rfl
  · intro c hc hd hw hp hm hu
    cases hv : vacancyYear s with
    | none => rfl
    | some n =>
      exfalso
      have := pyIntChars_chars _ n hv c hc
      rcases this with h1 | h1 | h1 | h1 | h1
      · rw [hd] at h1; exact Bool.noConfusion h1
      · rw [hw] at h1; exact Bool.noConfusion h1
      · exact hp h1
      · exact hm h1
      · exact hu h1

/-- C8 witness: "2019-05-01" parses to year 2019 through the all-digit
branch of `vacancyYear_amended`, and "20a9" fails through its bad-character
branch. -/
theorem vacancyYear_amended_witness :
    vacancyYear "2019-05-01" = some 2019 ∧ vacancyYear "20a9" = none := by
  constructor
  · have h := (vacancyYear_amended "2019-05-01").1 (by decide) (by decide)
    rw [h]
    decide
  · exact (vacancyYear_amended "20a9").2 'a' (by decide) (by decide) (by decide)
      (by decide) (by decide) (by decide)

end Spec2Proof
